import Mathlib

/-!
Verification development for the SIMPLEST-Neural-Network-Possible repository
(`simplest-nn.py` and `simplest-nn-oo.py`, two near-duplicate implementations
of the same mini-batch gradient-descent classifier).

The numeric backend (`blas`, which is numpy or cupy) is modelled abstractly,
as the spec prescribes: machine floats become exact rationals or reals,
matrices become lists of rows (for the dynamically shaped network code) or
Mathlib matrices over `Fin` (for the Dense-layer algebra), and the global RNG
is replaced by an explicit permutation source passed to the shuffling code.

The file is organised as: all definitions first, then helper lemmas, then the
claim theorems (each preceded by a doc comment naming its claim).
-/

namespace SimplestNN

/-! ## Batching / shuffling (`shuffle`, `batch_data`) -/

/-- Python slice `l[start:stop]` (for `start ≤ stop`; both clamp at the list's
length, exactly as Python slices do). -/
def pySlice (l : List α) (start stop : ℕ) : List α :=
  (l.take stop).drop start

/-- `shuffle(X, Y)` from the source: builds the index list `[0, ..., m-1]`,
shuffles it in place with the backend RNG, and returns `X[idxs], Y[idxs]`.
The RNG shuffle is modelled by the explicit permutation `perm` supplied by
the caller (the spec's §9 note on replacing global RNG seeding with an
explicit random source); `X[idxs]` is fancy indexing, i.e. the row of `X`
at each index of `perm` in order. -/
def shuffle (perm : List ℕ) (X : List α) (Y : List β) : List α × List β :=
  (perm.filterMap (fun i => X[i]?), perm.filterMap (fun i => Y[i]?))

/-- `batch_data(X, Y, batch_size, cycles)` from the source, with the per-cycle
RNG permutation supplied explicitly by `perms`.  For each cycle it computes
`shuffled_X, shuffled_Y = shuffle(X, Y)`, sets `num_batches = m // batch_size`,
emits the slices `X[b*batch_size : (b+1)*batch_size]` for
`b in range(num_batches - 1)`, and finally appends
`(X[num_batches*batch_size:], Y[num_batches*batch_size:])`.
Note the slices are taken from `X` and `Y` themselves, exactly as in the
source (the shuffled pair is bound but never read). -/
def batch_data (perms : ℕ → List ℕ) (X : List α) (Y : List β)
    (batch_size cycles : ℕ) : List (List (List α × List β)) :=
  (List.range cycles).map (fun e =>
    let _shuffled := shuffle (perms e) X Y
    let m := X.length
    let num_batches := m / batch_size
    let batches := (List.range (num_batches - 1)).map (fun batch =>
      let start := batch * batch_size
      let stop := (batch + 1) * batch_size
      (pySlice X start stop, pySlice Y start stop))
    let last_start := num_batches * batch_size
    batches ++ [(X.drop last_start, Y.drop last_start)])

/-! ## Training loop (`Net.train` / `train`)

The loop's control structure is embedded exactly: per cycle, if
`cycle > 0 and accs[-1] >= 100.0` it breaks; otherwise it runs the cycle's
batches through forward/backward and appends the cycle's mean cost, accuracy
percentage and duration to the three histories.  The per-cycle numeric body
(forward/backward over the cycle's batch list and the metric accumulation) is
abstracted as the function `step`, mapping the current weights and cycle
index to the updated weights and that cycle's `(cost, accuracy, duration)`;
the claims settled here concern only the loop's control flow and history
bookkeeping, which hold for every such body.  Metric values are modelled as
exact rationals. -/

/-- Result of a training run: final weights plus the three per-cycle metric
histories (`costs`, `accs`, `times`), one entry per completed cycle. -/
structure TrainResult (W : Type) where
  weights : W
  costs : List ℚ
  accs : List ℚ
  times : List ℚ
  deriving DecidableEq

/-- Weights obtained by running the first `n` cycle bodies unconditionally:
`iterW step w0 n` is the weight state after cycles `0, ..., n-1`. -/
def iterW (step : W → ℕ → W × ℚ × ℚ × ℚ) (w0 : W) : ℕ → W
  | 0 => w0
  | n + 1 => (step (iterW step w0 n) n).1

/-- The training loop body.  `fuel` is the number of loop iterations left
(`for cycle in range(cycles)` runs exactly `cycles` iterations, so the loop
is entered with `fuel = cycles` and `c = 0`); `c` is the current cycle index
and the three lists are the histories accumulated so far.  At the top of each
iteration the source checks `if (cycle > 0) and (accs[-1] >= 100.0): break`;
otherwise it runs the cycle and appends to all three histories. -/
def trainGo (step : W → ℕ → W × ℚ × ℚ × ℚ) :
    ℕ → ℕ → W → List ℚ → List ℚ → List ℚ → TrainResult W
  | 0, _, w, costs, accs, times => ⟨w, costs, accs, times⟩
  | fuel + 1, c, w, costs, accs, times =>
    if 0 < c ∧ 100 ≤ accs.getLastD 0 then ⟨w, costs, accs, times⟩
    else
      let r := step w c
      trainGo step fuel (c + 1) r.1 (costs ++ [r.2.1]) (accs ++ [r.2.2.1])
        (times ++ [r.2.2.2])

/-- `train`: the training loop of `Net.train` / `train`, starting from fresh
weights `w0` and empty histories.  (The source's post-loop processing merely
rounds the histories elementwise with `blas.around`, which changes no list
length and no weight.) -/
def train (step : W → ℕ → W × ℚ × ℚ × ℚ) (cycles : ℕ) (w0 : W) :
    TrainResult W :=
  trainGo step cycles 0 w0 [] [] []

/-! ## The Dense layer (`Dense.forward` / `Dense.backward`)

For the Dense layer's algebra the matrices are Mathlib matrices over `Fin`
dimensions, with float entries modelled as exact rationals: `m` is the batch
row count, `i` the layer's input size, `o` its output size.  A layer holds
its weight matrix plus the `self.input` / `self.output` caches written by
`forward`. -/

/-- The state of a `Dense` layer after a `forward` call: the weight matrix
and the cached `self.input` and `self.output`. -/
structure DenseState (m i o : ℕ) where
  weights : Matrix (Fin i) (Fin o) ℚ
  input : Matrix (Fin m) (Fin i) ℚ
  output : Matrix (Fin m) (Fin o) ℚ

/-- `Dense.forward(input)`: caches the input, computes
`self.output = input.dot(self.weights)` and caches it too. -/
def denseForward (w : Matrix (Fin i) (Fin o) ℚ)
    (input : Matrix (Fin m) (Fin i) ℚ) : DenseState m i o :=
  ⟨w, input, input * w⟩

/-- `Dense.backward(grad, lr)`: computes `dW = (grad.T).dot(self.input).T`
and `dZ = grad.dot(self.weights.T)`, performs the in-place update
`self.weights -= dW * lr` (returned here as the new layer state), and
returns `dZ`. -/
def denseBackward (s : DenseState m i o) (grad : Matrix (Fin m) (Fin o) ℚ)
    (lr : ℚ) : DenseState m i o × Matrix (Fin m) (Fin i) ℚ :=
  let dW := (grad.transpose * s.input).transpose
  let dZ := grad * s.weights.transpose
  (⟨s.weights - dW.map (fun v => v * lr), s.input, s.output⟩, dZ)

/-! ## The layer stack and evaluation (`Softplus`, `Softmax`, `Net.forward`,
`Net.test`)

The network code is dynamically shaped, so here a matrix is a list of rows
(`Mat K`).  The scalar type `K` abstracts the backend's float type as the
spec prescribes (a linearly ordered field; `FloorRing` supplies rounding for
`blas.around`); the backend's elementwise transcendentals `blas.exp` and
`blas.log` are passed in as functions `expk`, `logk` and are instantiated
with `Real.exp` / `Real.log` in the claims that use their properties. -/

/-- A dynamically shaped matrix: a list of rows. -/
abbrev Mat (K : Type) := List (List K)

variable {K : Type} [LinearOrderedField K]

/-- Dot product of two equal-length vectors (a row of the left matrix with a
column of the right matrix). -/
def dotL (u v : List K) : K :=
  (List.zipWith (fun a b => a * b) u v).sum

/-- `A.dot(B)`: standard matrix product, row by column. -/
def matmul (A B : Mat K) : Mat K :=
  A.map (fun row => B.transpose.map (fun col => dotL row col))

/-- `blas.max(z, axis=1)` for one row: the maximum of the row's entries
(numpy requires the row to be nonempty; the `0` returned for `[]` is a junk
value never reached from valid inputs). -/
def rowMax : List K → K
  | [] => 0
  | x :: xs => xs.foldl max x

/-- One row of `Softmax.forward`: subtract the row maximum, exponentiate
elementwise with the backend's `exp`, and divide each entry by the row sum
of the exponentials. -/
def softmaxRow (expk : K → K) (row : List K) : List K :=
  let m := rowMax row
  let ez := row.map (fun x => expk (x - m))
  ez.map (fun e => e / ez.sum)

/-- `Softmax.forward(z)` applied rowwise (the per-row max subtraction, the
`blas.exp`, and the per-row normalisation all operate along `axis=1`). -/
def softmaxForward (expk : K → K) (z : Mat K) : Mat K :=
  z.map (softmaxRow expk)

/-- A layer of the network with its state: `Dense` holds its weight matrix,
and every variant holds the `self.input` / `self.output` caches overwritten
by each `forward` call. -/
inductive Layer (K : Type) where
  | dense (weights input output : Mat K)
  | softplus (input output : Mat K)
  | softmax (input output : Mat K)

/-- One layer's `forward` call: returns the layer's new state (weights
unchanged, caches overwritten) together with its output.
`Dense.forward` returns `input.dot(self.weights)`; `Softplus.forward`
returns `log(1.0 + exp(z))` elementwise; `Softmax.forward` is
`softmaxForward`. -/
def layerForward (expk logk : K → K) : Layer K → Mat K → Layer K × Mat K
  | .dense w _ _, input =>
    let out := matmul input w
    (.dense w input out, out)
  | .softplus _ _, z =>
    let out := z.map (fun row => row.map (fun x => logk (1 + expk x)))
    (.softplus z out, out)
  | .softmax _ _, z =>
    let out := softmaxForward expk z
    (.softmax z out, out)

/-- `Net.forward(batch)`: feed the batch through every layer in order,
threading the mutated layer states explicitly. -/
def netForward (expk logk : K → K) : List (Layer K) → Mat K → List (Layer K) × Mat K
  | [], out => ([], out)
  | L :: rest, out =>
    let r := layerForward expk logk L out
    let r2 := netForward expk logk rest r.2
    (r.1 :: r2.1, r2.2)

/-- `blas.argmax` over one row: index of the first maximal entry (numpy
returns the first occurrence of the maximum). -/
def argmaxRow (row : List K) : ℕ :=
  (row.foldl
    (fun st x => if st.2.2 < x then (st.2.1, st.2.1 + 1, x)
                 else (st.1, st.2.1 + 1, st.2.2))
    ((0 : ℕ), (0 : ℕ), row.headD 0)).1

/-- `blas.count_nonzero(blas.argmax(out, axis=1) == blas.argmax(y, axis=1))`:
the number of rows whose predicted class equals the target class. -/
def countCorrect (out y : Mat K) : ℕ :=
  (List.zipWith (fun o t => argmaxRow o == argmaxRow t) out y).count true

/-- `blas.around(x, d)`: round to `d` decimal places.  (numpy resolves exact
ties to the even neighbour while `round` rounds them up; no claim settled
here depends on tie behaviour.) -/
def around [FloorRing K] (x : K) (d : ℕ) : K :=
  (round (x * 10 ^ d) : ℤ) / 10 ^ d

/-- `Net.test()` / `test(x, y, weights)`: one forward pass over the test
set, accuracy `around(100 * correct / rows, 5)`; returns the accuracy, the
prediction matrix, and the layer states as left by the forward pass. -/
def test [FloorRing K] (expk logk : K → K) (net : List (Layer K))
    (x y : Mat K) : K × Mat K × List (Layer K) :=
  let r := netForward expk logk net x
  (around (100 * (countCorrect r.2 y : K) / (x.length : K)) 5, r.2, r.1)

/-- The part of a layer's state that `forward` reads: its constructor and,
for `Dense`, its weight matrix (the caches are write-only during a forward
pass). -/
inductive LayerSig (K : Type) where
  | dense (weights : Mat K)
  | softplus
  | softmax

/-- Projection of a layer to its signature. -/
def layerSig : Layer K → LayerSig K
  | .dense w _ _ => .dense w
  | .softplus _ _ => .softplus
  | .softmax _ _ => .softmax

/-- The weight matrices of all Dense layers of the network, in order. -/
def netWeights (net : List (Layer K)) : List (Mat K) :=
  net.filterMap (fun L => match L with
    | .dense w _ _ => some w
    | _ => none)

/-! ## Helper lemmas -/

/-- Dividing every element of a list by `s` divides its sum by `s`. -/
theorem sum_map_div (l : List K) (s : K) :
    (l.map (fun e => e / s)).sum = l.sum / s := by
  induction l with
  | nil => simp
  | cons x xs ih => simp [add_div, ih]

/-- One row of `Softmax.forward` on a nonempty row is entrywise in `[0, 1]`
and sums to `1`. -/
theorem softmaxRow_stochastic (row : List ℝ) (hne : row ≠ []) :
    (∀ p ∈ softmaxRow Real.exp row, 0 ≤ p ∧ p ≤ 1) ∧
    (softmaxRow Real.exp row).sum = 1 := by
  have key : softmaxRow Real.exp row
      = (row.map (fun x => Real.exp (x - rowMax row))).map
        (fun e => e / (row.map (fun x => Real.exp (x - rowMax row))).sum) := rfl
  set ez := row.map (fun x => Real.exp (x - rowMax row)) with hez
  have hpos : ∀ e ∈ ez, 0 < e := by
    intro e he
    rw [hez] at he
    simp only [List.mem_map] at he
    obtain ⟨x, _, rfl⟩ := he
    exact Real.exp_pos _
  have hnonneg : ∀ e ∈ ez, 0 ≤ e := fun e he => le_of_lt (hpos e he)
  have hezne : ez ≠ [] := by
    rw [hez]
    simpa using hne
  have hS : 0 < ez.sum := List.sum_pos ez hpos hezne
  constructor
  · intro p hp
    rw [key] at hp
    simp only [List.mem_map] at hp
    obtain ⟨e, he, rfl⟩ := hp
    exact ⟨div_nonneg (hnonneg e he) (le_of_lt hS),
      (div_le_one hS).2 (List.single_le_sum hnonneg e he)⟩
  · rw [key, sum_map_div, div_self (ne_of_gt hS)]

/-- Folding `max` commutes with adding a constant to the seed and to every
element. -/
theorem foldl_max_add (c : K) :
    ∀ (ys : List K) (a : K),
      (ys.map (fun v => v + c)).foldl max (a + c) = ys.foldl max a + c := by
  intro ys
  induction ys with
  | nil => intro a; rfl
  | cons y ys ih =>
    intro a
    simp only [List.map_cons, List.foldl_cons, max_add_add_right]
    exact ih (max a y)

/-- One row of `Softmax.forward` is invariant under adding a constant to the
whole row: the row maximum shifts by the same constant, so the argument of
every exponential is unchanged. -/
theorem softmaxRow_shift (expk : K → K) (row : List K) (c : K) :
    softmaxRow expk (row.map (fun x => x + c)) = softmaxRow expk row := by
  cases row with
  | nil => rfl
  | cons x xs =>
    have hmax : rowMax ((x :: xs).map (fun v => v + c)) = rowMax (x :: xs) + c := by
      simp only [List.map_cons, rowMax]
      exact foldl_max_add c xs x
    have harg : ((x :: xs).map (fun v => v + c)).map
        (fun v => expk (v - rowMax ((x :: xs).map (fun w => w + c))))
        = (x :: xs).map (fun v => expk (v - rowMax (x :: xs))) := by
      rw [hmax, List.map_map]
      refine List.map_congr_left ?_
      intro v _
      simp only [Function.comp_apply]
      congr 1
      ring
    simp only [softmaxRow]
    rw [harg]

/-- A layer's forward pass does not change its signature: the constructor is
preserved and a `Dense` layer's weights are untouched. -/
theorem layerSig_layerForward (expk logk : K → K) (L : Layer K) (x : Mat K) :
    layerSig (layerForward expk logk L x).1 = layerSig L := by
  cases L <;> rfl

/-- A layer's forward output depends only on its signature, not on its
caches. -/
theorem layerForward_out_congr (expk logk : K → K) (L L' : Layer K)
    (x : Mat K) (h : layerSig L = layerSig L') :
    (layerForward expk logk L x).2 = (layerForward expk logk L' x).2 := by
  cases L <;> cases L' <;> simp_all [layerSig, layerForward]

/-- A full forward pass preserves the signatures of all layers (in
particular all Dense weights). -/
theorem netSig_netForward (expk logk : K → K) :
    ∀ (net : List (Layer K)) (x : Mat K),
      (netForward expk logk net x).1.map layerSig = net.map layerSig := by
  intro net
  induction net with
  | nil => intro x; rfl
  | cons L rest ih =>
    intro x
    simp only [netForward, List.map_cons]
    rw [layerSig_layerForward, ih]

/-- The network's forward output depends only on the layer signatures. -/
theorem netForward_out_congr (expk logk : K → K) :
    ∀ (net net' : List (Layer K)) (x : Mat K),
      net.map layerSig = net'.map layerSig →
      (netForward expk logk net x).2 = (netForward expk logk net' x).2 := by
  intro net
  induction net with
  | nil =>
    intro net' x h
    have hnil : net' = [] := by simpa using h.symm
    subst hnil
    rfl
  | cons L rest ih =>
    intro net' x h
    cases net' with
    | nil => simp at h
    | cons L' rest' =>
      simp only [List.map_cons, List.cons.injEq] at h
      obtain ⟨h1, h2⟩ := h
      simp only [netForward]
      rw [layerForward_out_congr expk logk L L' x h1]
      exact ih rest' _ h2

omit [LinearOrderedField K] in
/-- Networks with equal layer signatures have equal Dense weight lists. -/
theorem netWeights_congr :
    ∀ (net net' : List (Layer K)), net.map layerSig = net'.map layerSig →
      netWeights net = netWeights net' := by
  intro net
  induction net with
  | nil =>
    intro net' h
    have hnil : net' = [] := by simpa using h.symm
    subst hnil
    rfl
  | cons L rest ih =>
    intro net' h
    cases net' with
    | nil => simp at h
    | cons L' rest' =>
      simp only [List.map_cons, List.cons.injEq] at h
      obtain ⟨h1, h2⟩ := h
      cases L <;> cases L' <;>
        simp_all [layerSig, netWeights, List.filterMap_cons] <;>
        exact ih rest' rfl

/-- The accuracy history only ever grows: the loop's result extends the
accumulated `accs` list. -/
theorem trainGo_accs_prefix (step : W → ℕ → W × ℚ × ℚ × ℚ) :
    ∀ fuel c w costs accs times, ∃ t,
      (trainGo step fuel c w costs accs times).accs = accs ++ t := by
  intro fuel
  induction fuel with
  | zero => intro c w costs accs times; exact ⟨[], by simp [trainGo]⟩
  | succ f ih =>
    intro c w costs accs times
    by_cases h : 0 < c ∧ 100 ≤ accs.getLastD 0
    · refine ⟨[], ?_⟩
      simp only [trainGo]
      rw [if_pos h]
      simp
    · obtain ⟨t, ht⟩ := ih (c + 1) (step w c).1 (costs ++ [(step w c).2.1])
        (accs ++ [(step w c).2.2.1]) (times ++ [(step w c).2.2.2])
      refine ⟨(step w c).2.2.1 :: t, ?_⟩
      simp only [trainGo]
      rw [if_neg h, ht]
      simp

/-- Main loop invariant for the early-stop claim: if the loop's final
accuracy history has an entry `a ≥ 100` at index `k` with `k + 1` strictly
inside the remaining iteration budget, then the loop stops right after
cycle `k`: all three histories end with length `k + 1` and the final weights
are those after cycles `0, ..., k`. -/
theorem trainGo_stop (step : W → ℕ → W × ℚ × ℚ × ℚ) (w0 : W) (k : ℕ) (a : ℚ)
    (h100 : 100 ≤ a) :
    ∀ d c fuel w costs accs times,
      c + d = k + 1 → k + 1 < c + fuel →
      costs.length = c → accs.length = c → times.length = c →
      w = iterW step w0 c →
      (trainGo step fuel c w costs accs times).accs[k]? = some a →
      (trainGo step fuel c w costs accs times).costs.length = k + 1 ∧
      (trainGo step fuel c w costs accs times).accs.length = k + 1 ∧
      (trainGo step fuel c w costs accs times).times.length = k + 1 ∧
      (trainGo step fuel c w costs accs times).weights = iterW step w0 (k + 1) := by
  intro d
  induction d with
  | zero =>
    intro c fuel w costs accs times hc hfuel hlc hla hlt hw hres
    obtain ⟨f, rfl⟩ : ∃ f, fuel = f + 1 := ⟨fuel - 1, by omega⟩
    have hc' : c = k + 1 := by omega
    -- the check must fire at cycle `c = k + 1`: `accs` has length `k + 1`
    -- and its last entry is the result's entry `k`, which is `a ≥ 100`.
    have hlast : accs[k]? = some a := by
      obtain ⟨t, ht⟩ := trainGo_accs_prefix step (f + 1) c w costs accs times
      have hk : k < accs.length := by omega
      rw [ht, List.getElem?_append_left hk] at hres
      exact hres
    have hgd : accs.getLastD 0 = a := by
      have hgl : accs.getLast? = some a := by
        rw [List.getLast?_eq_getElem?, hla, hc']
        simpa using hlast
      rw [List.getLastD_eq_getLast?, hgl]
      rfl
    have h : 0 < c ∧ 100 ≤ accs.getLastD 0 :=
      ⟨by omega, by rw [hgd]; exact h100⟩
    simp only [trainGo]
    rw [if_pos h]
    refine ⟨?_, ?_, ?_, ?_⟩
    · show costs.length = k + 1
      omega
    · show accs.length = k + 1
      omega
    · show times.length = k + 1
      omega
    · show w = iterW step w0 (k + 1)
      rw [hw, hc']
  | succ d ih =>
    intro c fuel w costs accs times hc hfuel hlc hla hlt hw hres
    obtain ⟨f, rfl⟩ : ∃ f, fuel = f + 1 := ⟨fuel - 1, by omega⟩
    by_cases h : 0 < c ∧ 100 ≤ accs.getLastD 0
    · exfalso
      simp only [trainGo] at hres
      rw [if_pos h] at hres
      have hres' : accs[k]? = some a := hres
      have hnone : accs[k]? = none := List.getElem?_eq_none (by omega)
      rw [hnone] at hres'
      exact Option.noConfusion hres'
    · simp only [trainGo] at hres ⊢
      rw [if_neg h] at hres ⊢
      refine ih (c + 1) f (step w c).1 (costs ++ [(step w c).2.1])
        (accs ++ [(step w c).2.2.1]) (times ++ [(step w c).2.2.2])
        (by omega) (by omega) (by simp [hlc]) (by simp [hla]) (by simp [hlt])
        ?_ hres
      rw [hw]
      rfl

/-! ## Claim theorems for the training loop -/

/-- C4: if the accuracy recorded for completed cycle `k` (with
`k + 1 < cycles`) is at least `100.0`, then no cycle after `k` executes —
the final weights are exactly the weights after cycles `0, ..., k` — and the
returned cost, accuracy and duration histories each have length `k + 1`.
(The hypothesis reads the recorded accuracy off the returned history, which
has an entry at index `k` precisely when cycle `k` completed.) -/
theorem train_early_stop (step : W → ℕ → W × ℚ × ℚ × ℚ) (cycles : ℕ) (w0 : W)
    (k : ℕ) (a : ℚ) (hk : k + 1 < cycles)
    (ha : (train step cycles w0).accs[k]? = some a) (h100 : 100 ≤ a) :
    (train step cycles w0).costs.length = k + 1 ∧
    (train step cycles w0).accs.length = k + 1 ∧
    (train step cycles w0).times.length = k + 1 ∧
    (train step cycles w0).weights = iterW step w0 (k + 1) :=
  trainGo_stop step w0 k a h100 (k + 1) 0 cycles w0 [] [] []
    (by omega) (by omega) rfl rfl rfl rfl ha

/-- Witness for C4: a three-cycle run whose first cycle reports accuracy
exactly `100` stops after that cycle, leaving histories of length one. -/
theorem train_early_stop_witness :
    0 + 1 < 3 ∧
    (train (fun (_ : Unit) _ => ((), 0, 100, 0)) 3 ()).accs[0]? = some 100 ∧
    (100 : ℚ) ≤ 100 ∧
    ((train (fun (_ : Unit) _ => ((), 0, 100, 0)) 3 ()).costs.length = 0 + 1 ∧
     (train (fun (_ : Unit) _ => ((), 0, 100, 0)) 3 ()).accs.length = 0 + 1 ∧
     (train (fun (_ : Unit) _ => ((), 0, 100, 0)) 3 ()).times.length = 0 + 1 ∧
     (train (fun (_ : Unit) _ => ((), 0, 100, 0)) 3 ()).weights
       = iterW (fun (_ : Unit) _ => ((), 0, 100, 0)) () (0 + 1)) :=
  ⟨by decide, by decide, by decide,
    train_early_stop (fun (_ : Unit) _ => ((), 0, 100, 0)) 3 () 0 100
      (by decide) (by decide) (by decide)⟩

/-! ## Claim theorems for batching -/

/-- C1: the claim says the row counts of one cycle's batches sum to `N` and
the batches form a permutation of the rows (no drops).  The code violates
this: with `N = 4` rows and `batch_size = 2` the loop emits the single full
batch `rows 0..1` and the final batch starts at `num_batches * batch_size
= 4`, so it is empty — rows 2 and 3 are dropped and the row counts are
`[2, 0]`, summing to `2 ≠ 4`. -/
theorem batch_data_drops_rows :
    ((batch_data (fun _ => [0, 1, 2, 3]) [0, 1, 2, 3] [(0 : ℕ), 1, 2, 3] 2
      1).headD []).map (fun p => p.1.length) = [2, 0] := by decide

/-- C2: the claim says each cycle's batches are slices of the shuffled
matrices.  The code computes the shuffle but slices the originals: with
`X = [10, 20]`, `Y = [30, 40]`, `batch_size = 1` and the cycle's permutation
`[1, 0]`, the shuffle of the data is `([20, 10], [40, 30])`, yet the first
emitted batch is `([10], [30])` — a slice of the unshuffled `X, Y` (a slice
of the shuffled matrices would have been `([20], [40])`). -/
theorem batch_data_ignores_shuffle :
    batch_data (fun _ => [1, 0]) [10, 20] [(30 : ℕ), 40] 1 1
      = [[([10], [30]), ([], [])]] ∧
    shuffle [1, 0] [10, 20] [(30 : ℕ), 40] = ([20, 10], [40, 30]) := by
  decide

/-- C3: the claim says that for `N ≥ 2b` a cycle has `⌊N/b⌋ - 1` batches of
exactly `b` rows and a final batch of between `b` and `2b - 1` rows (exactly
`b` when `b ∣ N`).  With `N = 6`, `b = 2` (so `N ≥ 2b` and `b ∣ N`) the code
emits row counts `[2, 2, 0]`: the final batch starts at
`num_batches * batch_size = 6` and is empty instead of having `b = 2` rows
(rows 4 and 5 are dropped). -/
theorem batch_data_final_batch_empty :
    ((batch_data (fun _ => List.range 6) (List.range 6) (List.range 6) 2
      1).headD []).map (fun p => p.1.length) = [2, 2, 0] := by decide

/-- C9: every cycle receives the identical batch list, because the per-cycle
shuffle result is computed but never used when slicing — the emitted batches
are slices of the original `X, Y` and so do not depend on the cycle index or
on the permutations at all. -/
theorem batch_data_cycles_identical (perms : ℕ → List ℕ) (X : List α)
    (Y : List β) (b cycles i j : ℕ) (hi : i < cycles) (hj : j < cycles) :
    (batch_data perms X Y b cycles)[i]? = (batch_data perms X Y b cycles)[j]? := by
  simp [batch_data, List.getElem?_map, List.getElem?_range, hi, hj]

/-- Witness for C9 at a concrete dataset: two cycles of
`batch_data` on a one-row dataset give the same batch list. -/
theorem batch_data_cycles_identical_witness :
    0 < 2 ∧ 1 < 2 ∧
    (batch_data (fun _ => []) [0] [(0 : ℕ)] 1 2)[0]?
      = (batch_data (fun _ => []) [0] [(0 : ℕ)] 1 2)[1]? :=
  ⟨by decide, by decide,
    batch_data_cycles_identical _ _ _ _ _ _ _ (by decide) (by decide)⟩

/-! ## Claim theorems for Softmax and evaluation -/

/-- C5: for every input matrix (with nonempty rows, as numpy's rowwise
`max` requires), the output of `Softmax.forward` is row-stochastic: every
entry lies in `[0, 1]` and every row sums to exactly `1`, the entries being
the row's shifted exponentials normalised by their sum. -/
theorem softmax_row_stochastic (z : Mat ℝ) (hz : ∀ row ∈ z, row ≠ []) :
    ∀ r ∈ softmaxForward Real.exp z,
      (∀ p ∈ r, 0 ≤ p ∧ p ≤ 1) ∧ r.sum = 1 := by
  intro r hr
  simp only [softmaxForward, List.mem_map] at hr
  obtain ⟨row, hrow, rfl⟩ := hr
  exact softmaxRow_stochastic row (hz row hrow)

/-- Witness for C5: the softmax of the one-entry matrix `[[0]]` is
row-stochastic. -/
theorem softmax_row_stochastic_witness :
    (∀ row ∈ ([[(0 : ℝ)]] : Mat ℝ), row ≠ []) ∧
    (∀ r ∈ softmaxForward Real.exp ([[(0 : ℝ)]] : Mat ℝ),
      (∀ p ∈ r, 0 ≤ p ∧ p ≤ 1) ∧ r.sum = 1) :=
  ⟨by simp, softmax_row_stochastic _ (by simp)⟩

/-- C10: `Softmax.forward` is invariant under per-row constant shifts:
adding the `i`-th entry of the column vector `cs` to every entry of the
`i`-th row of `z` leaves the output unchanged (the row max absorbs the
shift before exponentiation). -/
theorem softmax_shift_invariant (z : Mat ℝ) (cs : List ℝ)
    (h : cs.length = z.length) :
    softmaxForward Real.exp
        (List.zipWith (fun c row => row.map (fun x => x + c)) cs z)
      = softmaxForward Real.exp z := by
  induction z generalizing cs with
  | nil => simp [softmaxForward]
  | cons row rest ih =>
    cases cs with
    | nil => simp at h
    | cons c cs' =>
      simp only [List.zipWith_cons_cons, softmaxForward, List.map_cons]
      rw [softmaxRow_shift]
      have htail := ih cs' (by simpa using h)
      simp only [softmaxForward] at htail
      rw [htail]

/-- Witness for C10: shifting the single row of `[[0, 1]]` by `5` leaves
the softmax output unchanged. -/
theorem softmax_shift_invariant_witness :
    ([(5 : ℝ)].length = ([[(0 : ℝ), 1]] : Mat ℝ).length) ∧
    softmaxForward Real.exp
        (List.zipWith (fun c row => row.map (fun x => x + c)) [(5 : ℝ)]
          ([[(0 : ℝ), 1]] : Mat ℝ))
      = softmaxForward Real.exp ([[(0 : ℝ), 1]] : Mat ℝ) :=
  ⟨by simp, softmax_shift_invariant _ _ (by simp)⟩

/-- C8: evaluation is deterministic and does not mutate weights.  Running
`test` once on a network and then again on the state it left behind yields
the identical accuracy and the identical prediction matrix, and both calls
leave every Dense layer's weight matrix as it was before: `test` only
rewrites the per-layer forward caches, which the forward output does not
read.  Stated over any ordered-field scalar type and any backend `exp` and
`log`. -/
theorem test_deterministic_pure [FloorRing K] (expk logk : K → K)
    (net : List (Layer K)) (x y : Mat K) :
    (test expk logk (test expk logk net x y).2.2 x y).1
      = (test expk logk net x y).1 ∧
    (test expk logk (test expk logk net x y).2.2 x y).2.1
      = (test expk logk net x y).2.1 ∧
    netWeights (test expk logk net x y).2.2 = netWeights net ∧
    netWeights (test expk logk (test expk logk net x y).2.2 x y).2.2
      = netWeights net := by
  have hsig1 : ((netForward expk logk net x).1).map layerSig
      = net.map layerSig := netSig_netForward expk logk net x
  have hout : (netForward expk logk ((netForward expk logk net x).1) x).2
      = (netForward expk logk net x).2 :=
    netForward_out_congr expk logk _ net x hsig1
  have hsig2 : ((netForward expk logk ((netForward expk logk net x).1) x).1).map
        layerSig = net.map layerSig := by
    rw [netSig_netForward]
    exact hsig1
  simp only [test]
  exact ⟨by rw [hout], hout, netWeights_congr _ _ hsig1,
    netWeights_congr _ _ hsig2⟩

/-! ## Claim theorems for the Dense layer -/

/-- C6: after `Dense.forward` cached the input, `Dense.backward(grad, lr)`
sets the weights to `old_weights - ((gradᵀ · cached_input)ᵀ) * lr` (stated
entrywise: entry `(a, b)` becomes `w a b - (∑ r, grad r b * input r a) * lr`),
returns `grad · old_weightsᵀ` (entry `(r, c)` is `∑ b, grad r b * w c b`),
and changes no other state of the layer: the cached input and output are
untouched by the update. -/
theorem dense_backward_update (w : Matrix (Fin i) (Fin o) ℚ)
    (input : Matrix (Fin m) (Fin i) ℚ) (grad : Matrix (Fin m) (Fin o) ℚ)
    (lr : ℚ) :
    (∀ a b, (denseBackward (denseForward w input) grad lr).1.weights a b
        = w a b - (∑ r, grad r b * input r a) * lr) ∧
    (∀ r c, (denseBackward (denseForward w input) grad lr).2 r c
        = ∑ b, grad r b * w c b) ∧
    (denseBackward (denseForward w input) grad lr).1.input = input ∧
    (denseBackward (denseForward w input) grad lr).1.output = input * w := by
  refine ⟨fun a b => ?_, fun r c => ?_, rfl, rfl⟩
  · simp [denseBackward, denseForward, Matrix.mul_apply,
      Matrix.transpose_apply, Matrix.sub_apply, Matrix.map_apply]
    exact Or.inl (Finset.sum_congr rfl fun x _ => mul_comm _ _)
  · simp [denseBackward, denseForward, Matrix.mul_apply,
      Matrix.transpose_apply, Matrix.sub_apply, Matrix.map_apply]

/-- C7: `Dense.forward` followed by `Dense.backward` with an all-zero
upstream gradient leaves the weight matrix exactly equal to its previous
value, for every learning rate. -/
theorem dense_zero_grad_identity (w : Matrix (Fin i) (Fin o) ℚ)
    (input : Matrix (Fin m) (Fin i) ℚ) (lr : ℚ) :
    (denseBackward (denseForward w input) 0 lr).1.weights = w := by
  ext a b
  simp [denseBackward, denseForward, Matrix.mul_apply]

end SimplestNN
